import Mathlib

/-!
Verification of the DynaMorph latent-bottleneck autoencoder core
(`HiddenStateExtractor/vq_vae.py` and `params.py`).

Shallow-embedding conventions used throughout this file:

* tensors are nested lists; entries are rationals (exact values standing
  for the tensor library's floats) wherever the code only adds, multiplies,
  divides, compares and selects, and real numbers wherever the code applies
  transcendental functions (`exp`, `log`);
* the spatial independence of the quantizer is used to represent a latent
  grid `[B, D, h, w]` as the list of its `B*h*w` spatial positions, each a
  `D`-vector (the `transpose` calls in the source only restore the
  channel-first layout and are identities in this representation);
* the seeded random pool draw of the reorderer (`np.random.choice`) is
  modelled by an arbitrary selection function `choose`; the Gaussian noise
  of the VAE family (`t.randn_like`) is passed in explicitly;
* Python exceptions (`KeyError` of a dict/set access, `ValueError` of the
  sparse-matrix constructor, `TypeError` from operating on `None`) are
  modelled by `Option`, with `none` standing for a raised exception.
-/

namespace DynaMorph

/-! ### Codebook quantizer (`VectorQuantizer`, vq_vae.py lines 23-117)

A codebook `w` is the list of its `num_embeddings` embedding vectors
(`self.w.weight`, each of length `embedding_dim`); an input latent grid is
the list of its spatial positions, each an `embedding_dim`-vector. -/

namespace VectorQuantizer

/-- Squared Euclidean distance of one spatial position to one codebook
vector: `t.sum((inputs.unsqueeze(1) - self.w.weight.reshape(...))**2, 2)`
(vq_vae.py lines 63 and 102) computes this for every position/codebook
pair. -/
def sqDist (x v : List ℚ) : ℚ := (List.zipWith (fun a b => (a - b) ^ 2) x v).sum

/-- Index of the first minimal entry of a list: `t.argmax(-distances, 1)`
(vq_vae.py lines 66 and 103) returns, per spatial position, the first index
whose negated distance is maximal, i.e. the first minimizer of the
distance. -/
def argminIdx (l : List ℚ) : Nat := l.findIdx (fun d => decide (∀ e ∈ l, d ≤ e))

/-- Per-position encoding: index of the codebook vector nearest to `x`. -/
def encodePos (w : List (List ℚ)) (x : List ℚ) : Nat := argminIdx (w.map (sqDist x))

/-- `VectorQuantizer.encode_inputs` (vq_vae.py lines 91-104): per-position
index of the nearest codebook vector. -/
def encode_inputs (w : List (List ℚ)) (inputs : List (List ℚ)) : List Nat :=
  inputs.map (encodePos w)

/-- `VectorQuantizer.decode_inputs` (vq_vae.py lines 106-117): index the
codebook at each encoding index (`self.w(encoding_indices)`; the two
`transpose` calls only restore the channel-first layout). -/
def decode_inputs (w : List (List ℚ)) (idxs : List Nat) : List (List ℚ) :=
  idxs.map (fun i => w.getD i [])

/-- The quantized output of `VectorQuantizer.forward` (vq_vae.py lines
63-67): the same argmax selection as `encode_inputs` followed by the same
codebook lookup as `decode_inputs`. -/
def forwardQuantized (w inputs : List (List ℚ)) : List (List ℚ) :=
  decode_inputs w (encode_inputs w inputs)

lemma exists_min_mem : ∀ (l : List ℚ), l ≠ [] → ∃ m ∈ l, ∀ e ∈ l, m ≤ e
  | [], h => absurd rfl h
  | [x], _ => ⟨x, List.mem_singleton_self x, by
      intro e he; rw [List.mem_singleton] at he; simp [he]⟩
  | x :: y :: t, _ => by
      obtain ⟨m, hm, hmin⟩ := exists_min_mem (y :: t) (by simp)
      rcases le_total x m with hxm | hmx
      · exact ⟨x, List.mem_cons_self _ _, by
          intro e he
          rcases List.mem_cons.1 he with rfl | he'
          · exact le_refl e
          · exact le_trans hxm (hmin e he')⟩
      · exact ⟨m, List.mem_cons_of_mem _ hm, by
          intro e he
          rcases List.mem_cons.1 he with rfl | he'
          · exact hmx
          · exact hmin e he'⟩

lemma argminIdx_lt_length {l : List ℚ} (h : l ≠ []) : argminIdx l < l.length := by
  obtain ⟨m, hm, hmin⟩ := exists_min_mem l h
  exact List.findIdx_lt_length_of_exists ⟨m, hm, by simpa using hmin⟩

lemma argminIdx_min {l : List ℚ} (h : l ≠ []) :
    ∀ e ∈ l, l.getD (argminIdx l) 0 ≤ e := by
  have hlt := argminIdx_lt_length h
  have := @List.findIdx_getElem _ (fun d => decide (∀ e ∈ l, d ≤ e)) l hlt
  rw [List.getD_eq_getElem l 0 hlt]
  simpa using this

lemma encodePos_lt {w : List (List ℚ)} (hw : w ≠ []) (x : List ℚ) :
    encodePos w x < w.length := by
  have : (w.map (sqDist x)) ≠ [] := by simpa using hw
  simpa [encodePos] using argminIdx_lt_length this

/-- The index chosen by the quantizer minimizes the squared Euclidean
distance over the whole codebook. -/
lemma encodePos_nearest {w : List (List ℚ)} (hw : w ≠ []) (x : List ℚ) :
    ∀ v ∈ w, sqDist x (w.getD (encodePos w x) []) ≤ sqDist x v := by
  intro v hv
  have hne : (w.map (sqDist x)) ≠ [] := by simpa using hw
  have hmin := argminIdx_min hne (sqDist x v) (List.mem_map_of_mem (sqDist x) hv)
  have hlt : encodePos w x < w.length := encodePos_lt hw x
  have hgd : (w.map (sqDist x)).getD (argminIdx (w.map (sqDist x))) 0
      = sqDist x (w.getD (encodePos w x) []) := by
    have hlt' : encodePos w x < (w.map (sqDist x)).length := by simpa using hlt
    rw [show argminIdx (w.map (sqDist x)) = encodePos w x from rfl]
    rw [List.getD_eq_getElem _ 0 hlt', List.getD_eq_getElem _ [] hlt]
    simp
  rwa [hgd] at hmin

lemma getD_map_of_lt {α β : Type} (f : α → β) (l : List α) {i : Nat}
    (hi : i < l.length) (d : β) (d' : α) : (l.map f).getD i d = f (l.getD i d') := by
  rw [List.getD_eq_getElem _ _ (by simpa using hi), List.getD_eq_getElem _ _ hi,
    List.getElem_map]

lemma forwardQuantized_eq_map (w inputs : List (List ℚ)) :
    forwardQuantized w inputs = inputs.map (fun x => w.getD (encodePos w x) []) := by
  simp [forwardQuantized, encode_inputs, decode_inputs, List.map_map]

lemma getD_mem_of_lt {w : List (List ℚ)} {i : Nat} (hi : i < w.length) :
    w.getD i [] ∈ w := by
  rw [List.getD_eq_getElem _ _ hi]; exact List.getElem_mem _

end VectorQuantizer

open VectorQuantizer in
/-- C4: for every latent grid (a list of spatial position vectors of
dimension `D`) and nonempty codebook, `VectorQuantizer.forward` selects at
each spatial position the codebook index minimizing the squared Euclidean
distance to the input vector at that position, and its quantized output
substitutes each input vector by that nearest codebook vector, yielding a
tensor of the same shape (same number of positions, same vector dimension)
as the input. -/
theorem c4_quantizer_nearest (D : Nat) (w inputs : List (List ℚ)) (hw : w ≠ [])
    (hwD : ∀ v ∈ w, v.length = D) (hinD : ∀ x ∈ inputs, x.length = D) :
    (∀ i < inputs.length,
        encodePos w (inputs.getD i []) < w.length ∧
        (∀ v ∈ w, sqDist (inputs.getD i []) (w.getD (encodePos w (inputs.getD i [])) [])
            ≤ sqDist (inputs.getD i []) v) ∧
        (forwardQuantized w inputs).getD i [] = w.getD (encodePos w (inputs.getD i [])) []) ∧
    (forwardQuantized w inputs).length = inputs.length ∧
    ∀ q ∈ forwardQuantized w inputs, q.length = D := by
  refine ⟨?_, ?_, ?_⟩
  · intro i hi
    refine ⟨encodePos_lt hw _, encodePos_nearest hw _, ?_⟩
    rw [forwardQuantized_eq_map]
    exact getD_map_of_lt _ _ hi _ []
  · simp [forwardQuantized_eq_map]
  · intro q hq
    rw [forwardQuantized_eq_map] at hq
    obtain ⟨x, _, rfl⟩ := List.mem_map.1 hq
    exact hwD _ (getD_mem_of_lt (encodePos_lt hw x))

/-- Witness for C4 at a concrete codebook and input grid. -/
theorem c4_quantizer_nearest_witness :
    (∀ i < ([[(1 : ℚ)]] : List (List ℚ)).length,
        VectorQuantizer.encodePos [[(0 : ℚ)], [(2 : ℚ)]] (([[(1 : ℚ)]] : List (List ℚ)).getD i []) <
          ([[(0 : ℚ)], [(2 : ℚ)]] : List (List ℚ)).length ∧
        (∀ v ∈ ([[(0 : ℚ)], [(2 : ℚ)]] : List (List ℚ)),
            VectorQuantizer.sqDist (([[(1 : ℚ)]] : List (List ℚ)).getD i [])
                (([[(0 : ℚ)], [(2 : ℚ)]] : List (List ℚ)).getD
                  (VectorQuantizer.encodePos [[(0 : ℚ)], [(2 : ℚ)]]
                    (([[(1 : ℚ)]] : List (List ℚ)).getD i [])) [])
              ≤ VectorQuantizer.sqDist (([[(1 : ℚ)]] : List (List ℚ)).getD i []) v) ∧
        (VectorQuantizer.forwardQuantized [[(0 : ℚ)], [(2 : ℚ)]] [[(1 : ℚ)]]).getD i []
            = ([[(0 : ℚ)], [(2 : ℚ)]] : List (List ℚ)).getD
                (VectorQuantizer.encodePos [[(0 : ℚ)], [(2 : ℚ)]]
                  (([[(1 : ℚ)]] : List (List ℚ)).getD i [])) []) ∧
    (VectorQuantizer.forwardQuantized [[(0 : ℚ)], [(2 : ℚ)]] [[(1 : ℚ)]]).length
        = ([[(1 : ℚ)]] : List (List ℚ)).length ∧
    ∀ q ∈ VectorQuantizer.forwardQuantized [[(0 : ℚ)], [(2 : ℚ)]] [[(1 : ℚ)]], q.length = 1 :=
  c4_quantizer_nearest 1 [[(0 : ℚ)], [(2 : ℚ)]] [[(1 : ℚ)]] (by decide) (by decide) (by decide)

open VectorQuantizer in
/-- C5: `encode_inputs` followed by `decode_inputs` returns exactly the
tensor obtained by indexing the codebook at the indices returned by
`encode_inputs`; every returned vector is a codebook vector nearest to the
corresponding input vector (the nearest-codebook reconstruction), and the
round trip is in general not the identity. -/
theorem c5_encode_decode_roundtrip (w inputs : List (List ℚ)) (hw : w ≠ []) :
    decode_inputs w (encode_inputs w inputs)
        = (encode_inputs w inputs).map (fun i => w.getD i []) ∧
    (∀ i < inputs.length,
        (decode_inputs w (encode_inputs w inputs)).getD i [] ∈ w ∧
        ∀ v ∈ w, sqDist (inputs.getD i [])
            ((decode_inputs w (encode_inputs w inputs)).getD i [])
          ≤ sqDist (inputs.getD i []) v) ∧
    ∃ w0 x0 : List (List ℚ), decode_inputs w0 (encode_inputs w0 x0) ≠ x0 := by
  refine ⟨rfl, ?_, ⟨[[(0 : ℚ)]], [[(1 : ℚ)]], by
    norm_num [decode_inputs, encode_inputs, encodePos, argminIdx, sqDist,
      List.findIdx_cons]⟩⟩
  intro i hi
  have hqd : (decode_inputs w (encode_inputs w inputs)).getD i []
      = w.getD (encodePos w (inputs.getD i [])) [] := by
    rw [show decode_inputs w (encode_inputs w inputs) = forwardQuantized w inputs from rfl,
      forwardQuantized_eq_map]
    exact getD_map_of_lt _ _ hi _ []
  rw [hqd]
  exact ⟨getD_mem_of_lt (encodePos_lt hw _), encodePos_nearest hw _⟩

/-- Witness for C5 at a concrete codebook and input grid. -/
theorem c5_encode_decode_roundtrip_witness :
    (VectorQuantizer.decode_inputs [[(0 : ℚ)], [(2 : ℚ)]]
        (VectorQuantizer.encode_inputs [[(0 : ℚ)], [(2 : ℚ)]] [[(1 : ℚ)]])
      = (VectorQuantizer.encode_inputs [[(0 : ℚ)], [(2 : ℚ)]] [[(1 : ℚ)]]).map
          (fun i => ([[(0 : ℚ)], [(2 : ℚ)]] : List (List ℚ)).getD i [])) ∧
    (∀ i < ([[(1 : ℚ)]] : List (List ℚ)).length,
        (VectorQuantizer.decode_inputs [[(0 : ℚ)], [(2 : ℚ)]]
            (VectorQuantizer.encode_inputs [[(0 : ℚ)], [(2 : ℚ)]] [[(1 : ℚ)]])).getD i []
            ∈ ([[(0 : ℚ)], [(2 : ℚ)]] : List (List ℚ)) ∧
        ∀ v ∈ ([[(0 : ℚ)], [(2 : ℚ)]] : List (List ℚ)),
            VectorQuantizer.sqDist (([[(1 : ℚ)]] : List (List ℚ)).getD i [])
                ((VectorQuantizer.decode_inputs [[(0 : ℚ)], [(2 : ℚ)]]
                  (VectorQuantizer.encode_inputs [[(0 : ℚ)], [(2 : ℚ)]] [[(1 : ℚ)]])).getD i [])
              ≤ VectorQuantizer.sqDist (([[(1 : ℚ)]] : List (List ℚ)).getD i []) v) ∧
    ∃ w0 x0 : List (List ℚ),
        VectorQuantizer.decode_inputs w0 (VectorQuantizer.encode_inputs w0 x0) ≠ x0 :=
  c5_encode_decode_roundtrip [[(0 : ℚ)], [(2 : ℚ)]] [[(1 : ℚ)]] (by decide)

/-! ### Perplexity diagnostic (`VectorQuantizer.forward`, vq_vae.py lines 76-83)

`encoding_onehot.scatter_` followed by `t.mean(encoding_onehot, 0)` turns
the flattened list of per-position encoding indices into the empirical
usage frequency of each code; line 83 then computes
`t.exp(-t.sum(avg_probs * t.log(avg_probs + 1e-10)))`. -/

namespace VectorQuantizer

/-- Empirical usage probability of code `k`: the count of positions encoded
to `k` divided by the total number of positions (vq_vae.py lines 78-82). -/
noncomputable def avgProb (idxs : List Nat) (k : Nat) : ℝ :=
  (idxs.count k : ℝ) / (idxs.length : ℝ)

/-- The perplexity of vq_vae.py line 83, computed from the batch's list of
per-position encoding indices. -/
noncomputable def perplexity (num_embeddings : Nat) (idxs : List Nat) : ℝ :=
  Real.exp (-(∑ k ∈ Finset.range num_embeddings,
    avgProb idxs k * Real.log (avgProb idxs k + 1e-10)))

lemma sum_count_eq_length {K : Nat} :
    ∀ (idxs : List Nat), (∀ i ∈ idxs, i < K) →
      ∑ k ∈ Finset.range K, idxs.count k = idxs.length := by
  intro idxs
  induction idxs with
  | nil => intro _; simp
  | cons a t ih =>
      intro h
      have ha : a < K := h a (List.mem_cons_self _ _)
      have ht : ∀ i ∈ t, i < K := fun i hi => h i (List.mem_cons_of_mem _ hi)
      have hcnt : ∀ k, (a :: t).count k = t.count k + if a = k then 1 else 0 := by
        intro k
        rw [List.count_cons]
        simp
      calc ∑ k ∈ Finset.range K, (a :: t).count k
          = ∑ k ∈ Finset.range K, (t.count k + if a = k then 1 else 0) := by
            exact Finset.sum_congr rfl (fun k _ => hcnt k)
        _ = (∑ k ∈ Finset.range K, t.count k)
              + ∑ k ∈ Finset.range K, (if a = k then 1 else 0) := Finset.sum_add_distrib
        _ = t.length + 1 := by
            rw [ih ht, Finset.sum_ite_eq]
            simp [Finset.mem_range.2 ha]
        _ = (a :: t).length := by simp

lemma avgProb_nonneg (idxs : List Nat) (k : Nat) : 0 ≤ avgProb idxs k := by
  unfold avgProb
  positivity

lemma avgProb_le_one (idxs : List Nat) (k : Nat) : avgProb idxs k ≤ 1 := by
  unfold avgProb
  rcases Nat.eq_zero_or_pos idxs.length with h0 | hpos
  · simp [h0]
  · rw [div_le_one (by exact_mod_cast hpos)]
    exact_mod_cast idxs.count_le_length k

lemma sum_avgProb {K : Nat} (idxs : List Nat) (hne : idxs ≠ [])
    (hlt : ∀ i ∈ idxs, i < K) :
    ∑ k ∈ Finset.range K, avgProb idxs k = 1 := by
  have hn : (0 : ℝ) < idxs.length := by
    have := List.length_pos.2 hne
    exact_mod_cast this
  unfold avgProb
  rw [← Finset.sum_div]
  rw [show ∑ k ∈ Finset.range K, ((idxs.count k : ℝ))
      = ((∑ k ∈ Finset.range K, idxs.count k : Nat) : ℝ) by push_cast; ring]
  rw [sum_count_eq_length idxs hlt]
  exact div_self (ne_of_gt hn)

lemma avgProb_add_floor_pos (idxs : List Nat) (k : Nat) :
    (0 : ℝ) < avgProb idxs k + 1e-10 :=
  add_pos_of_nonneg_of_pos (avgProb_nonneg idxs k) (by norm_num)

end VectorQuantizer

open VectorQuantizer in
/-- C6 (amended): because of the `1e-10` floor inside the logarithm, the
perplexity of `VectorQuantizer.forward` on a nonempty batch lies in
`[(1 + 1e-10)⁻¹, num_embeddings)`; it equals `(num_embeddings⁻¹ + 1e-10)⁻¹`
when code usage is exactly uniform and `(1 + 1e-10)⁻¹` when exactly one
code is ever selected in the batch. -/
theorem c6_perplexity_range (K : Nat) (idxs : List Nat) (hne : idxs ≠ [])
    (hlt : ∀ i ∈ idxs, i < K) :
    ((1 + 1e-10 : ℝ))⁻¹ ≤ perplexity K idxs ∧
    perplexity K idxs < K ∧
    ((∃ c, ∀ k < K, idxs.count k = c) →
        perplexity K idxs = (((K : ℝ))⁻¹ + 1e-10)⁻¹) ∧
    ((∃ k0, ∀ i ∈ idxs, i = k0) → perplexity K idxs = ((1 + 1e-10 : ℝ))⁻¹) := by
  obtain ⟨i0, hi0⟩ := List.exists_mem_of_ne_nil idxs hne
  have hK : 0 < K := lt_of_le_of_lt (Nat.zero_le i0) (hlt i0 hi0)
  have hKR : (0 : ℝ) < K := by exact_mod_cast hK
  have hn : (0 : ℝ) < idxs.length := by
    exact_mod_cast List.length_pos.2 hne
  refine ⟨?_, ?_, ?_, ?_⟩
  · -- lower bound (1 + 1e-10)⁻¹
    have hEle : (∑ k ∈ Finset.range K,
        avgProb idxs k * Real.log (avgProb idxs k + 1e-10)) ≤ Real.log (1 + 1e-10) := by
      calc ∑ k ∈ Finset.range K, avgProb idxs k * Real.log (avgProb idxs k + 1e-10)
          ≤ ∑ k ∈ Finset.range K, avgProb idxs k * Real.log (1 + 1e-10) := by
            refine Finset.sum_le_sum (fun k _ => ?_)
            refine mul_le_mul_of_nonneg_left ?_ (avgProb_nonneg idxs k)
            exact Real.log_le_log (avgProb_add_floor_pos idxs k)
              (add_le_add_right (avgProb_le_one idxs k) _)
        _ = (∑ k ∈ Finset.range K, avgProb idxs k) * Real.log (1 + 1e-10) :=
            (Finset.sum_mul _ _ _).symm
        _ = Real.log (1 + 1e-10) := by rw [sum_avgProb idxs hne hlt, one_mul]
    calc ((1 + 1e-10 : ℝ))⁻¹ = Real.exp (-Real.log (1 + 1e-10)) := by
          rw [Real.exp_neg, Real.exp_log (by norm_num)]
      _ ≤ perplexity K idxs := Real.exp_le_exp.2 (neg_le_neg hEle)
  · -- strict upper bound K
    have hlog : ∀ k ∈ Finset.range K,
        avgProb idxs k * (1 - ((avgProb idxs k + 1e-10) * K)⁻¹)
          ≤ avgProb idxs k * Real.log ((avgProb idxs k + 1e-10) * K) := by
      intro k _
      have hx : (0 : ℝ) < (avgProb idxs k + 1e-10) * K :=
        mul_pos (avgProb_add_floor_pos idxs k) hKR
      have h1 := Real.log_le_sub_one_of_pos (inv_pos.2 hx)
      rw [Real.log_inv] at h1
      exact mul_le_mul_of_nonneg_left (by linarith) (avgProb_nonneg idxs k)
    have hsum_lt : ∑ k ∈ Finset.range K,
        avgProb idxs k / (avgProb idxs k + 1e-10) < K := by
      calc ∑ k ∈ Finset.range K, avgProb idxs k / (avgProb idxs k + 1e-10)
          < ∑ _k ∈ Finset.range K, (1 : ℝ) := by
            refine Finset.sum_lt_sum_of_nonempty (Finset.nonempty_range_iff.2 hK.ne') ?_
            intro k _
            rw [div_lt_one (avgProb_add_floor_pos idxs k)]
            norm_num
        _ = K := by simp
    have hEgt : -Real.log K < ∑ k ∈ Finset.range K,
        avgProb idxs k * Real.log (avgProb idxs k + 1e-10) := by
      have hsplit : (∑ k ∈ Finset.range K,
            avgProb idxs k * Real.log (avgProb idxs k + 1e-10)) + Real.log K
          = ∑ k ∈ Finset.range K,
              avgProb idxs k * Real.log ((avgProb idxs k + 1e-10) * K) := by
        have h2 : ∀ k ∈ Finset.range K,
            avgProb idxs k * Real.log ((avgProb idxs k + 1e-10) * K)
              = avgProb idxs k * Real.log (avgProb idxs k + 1e-10)
                + avgProb idxs k * Real.log K := by
          intro k _
          rw [Real.log_mul (ne_of_gt (avgProb_add_floor_pos idxs k)) (ne_of_gt hKR)]
          ring
        rw [Finset.sum_congr rfl h2, Finset.sum_add_distrib, ← Finset.sum_mul,
          sum_avgProb idxs hne hlt, one_mul]
      have hlb : (1 : ℝ) - (∑ k ∈ Finset.range K,
          avgProb idxs k / (avgProb idxs k + 1e-10)) * (K : ℝ)⁻¹
          ≤ ∑ k ∈ Finset.range K,
              avgProb idxs k * (1 - ((avgProb idxs k + 1e-10) * K)⁻¹) := by
        have h3 : ∀ k ∈ Finset.range K,
            avgProb idxs k * (1 - ((avgProb idxs k + 1e-10) * K)⁻¹)
              = avgProb idxs k
                - (avgProb idxs k / (avgProb idxs k + 1e-10)) * (K : ℝ)⁻¹ := by
          intro k _
          have h4 : (avgProb idxs k + 1e-10) ≠ 0 := ne_of_gt (avgProb_add_floor_pos idxs k)
          field_simp
          ring
        rw [Finset.sum_congr rfl h3, Finset.sum_sub_distrib, sum_avgProb idxs hne hlt,
          ← Finset.sum_mul]
      have hpos : (0 : ℝ) < 1 - (∑ k ∈ Finset.range K,
          avgProb idxs k / (avgProb idxs k + 1e-10)) * (K : ℝ)⁻¹ := by
        have h5 : (∑ k ∈ Finset.range K,
            avgProb idxs k / (avgProb idxs k + 1e-10)) * (K : ℝ)⁻¹
            < (K : ℝ) * (K : ℝ)⁻¹ := mul_lt_mul_of_pos_right hsum_lt (inv_pos.2 hKR)
        rw [mul_inv_cancel₀ (ne_of_gt hKR)] at h5
        linarith
      have hge := lt_of_lt_of_le hpos (le_trans hlb (Finset.sum_le_sum hlog))
      linarith [hsplit, hge]
    calc perplexity K idxs
        < Real.exp (Real.log K) := Real.exp_lt_exp.2 (by linarith)
      _ = K := Real.exp_log hKR
  · -- exact uniform usage
    rintro ⟨c, hc⟩
    have hsumc : K * c = idxs.length := by
      have := @sum_count_eq_length K idxs hlt
      rw [Finset.sum_congr rfl (fun k hk => hc k (Finset.mem_range.1 hk))] at this
      simpa [Finset.sum_const, Finset.card_range, Nat.smul_one_eq_cast] using this
    have hcpos : 0 < c := by
      rcases Nat.eq_zero_or_pos c with rfl | h
      · exfalso
        rw [Nat.mul_zero] at hsumc
        have := List.length_pos.2 hne
        omega
      · exact h
    have hp : ∀ k ∈ Finset.range K, avgProb idxs k = (K : ℝ)⁻¹ := by
      intro k hk
      have hck := hc k (Finset.mem_range.1 hk)
      have hcR : (0 : ℝ) < c := by exact_mod_cast hcpos
      have hcne : (c : ℝ) ≠ 0 := ne_of_gt hcR
      have hKne : (K : ℝ) ≠ 0 := ne_of_gt hKR
      rw [avgProb, hck, ← hsumc]
      push_cast
      field_simp
      ring
    have hE : (∑ k ∈ Finset.range K,
        avgProb idxs k * Real.log (avgProb idxs k + 1e-10))
        = Real.log ((K : ℝ)⁻¹ + 1e-10) := by
      rw [Finset.sum_congr rfl (fun k hk => by rw [hp k hk])]
      rw [Finset.sum_const, Finset.card_range, nsmul_eq_mul]
      rw [← mul_assoc, mul_inv_cancel₀ (ne_of_gt hKR), one_mul]
    rw [perplexity, hE, Real.exp_neg,
      Real.exp_log (add_pos_of_nonneg_of_pos (inv_nonneg.2 (le_of_lt hKR)) (by norm_num))]
  · -- exactly one code selected
    rintro ⟨k0, hk0⟩
    have hk0K : k0 < K := hk0 i0 hi0 ▸ hlt i0 hi0
    have hck0 : avgProb idxs k0 = 1 := by
      rw [avgProb, List.count_eq_length.2 (fun b hb => (hk0 b hb).symm)]
      exact div_self (ne_of_gt hn)
    have hE : (∑ k ∈ Finset.range K,
        avgProb idxs k * Real.log (avgProb idxs k + 1e-10))
        = Real.log (1 + 1e-10) := by
      rw [Finset.sum_eq_single k0 (fun b _ hbne => by
          have hb0 : avgProb idxs b = 0 := by
            rw [avgProb, List.count_eq_zero.2 (fun hbmem => hbne (hk0 b hbmem))]
            simp
          rw [hb0, zero_mul])
        (fun habs => absurd (Finset.mem_range.2 hk0K) habs)]
      rw [hck0, one_mul]
    rw [perplexity, hE, Real.exp_neg, Real.exp_log (by norm_num)]

/-- Witness for C6 at concrete batches: a two-code batch with uniform
usage, exercising both bounds and the uniform equality. -/
theorem c6_perplexity_range_witness :
    (((1 + 1e-10 : ℝ))⁻¹ ≤ VectorQuantizer.perplexity 2 [0, 1] ∧
    VectorQuantizer.perplexity 2 [0, 1] < 2 ∧
    ((∃ c, ∀ k < 2, ([0, 1] : List Nat).count k = c) →
        VectorQuantizer.perplexity 2 [0, 1] = (((2 : ℝ))⁻¹ + 1e-10)⁻¹) ∧
    ((∃ k0, ∀ i ∈ ([0, 1] : List Nat), i = k0) →
        VectorQuantizer.perplexity 2 [0, 1] = ((1 + 1e-10 : ℝ))⁻¹)) := by
  have h := c6_perplexity_range 2 [0, 1] (by decide) (by decide)
  exact_mod_cast h

/-- C6 counterexample: as literally stated the claim fails — when exactly
one code is selected the computed perplexity is `(1 + 1e-10)⁻¹ < 1`, not
`1`, and it leaves the claimed range `[1, num_embeddings]`. -/
theorem c6_perplexity_counterexample : VectorQuantizer.perplexity 1 [0] < 1 := by
  have hE : VectorQuantizer.perplexity 1 [0]
      = Real.exp (-(Real.log (1 + 1e-10))) := by
    rw [VectorQuantizer.perplexity, Finset.sum_range_one]
    norm_num [VectorQuantizer.avgProb]
  rw [hE, Real.exp_neg, Real.exp_log (by norm_num)]
  rw [inv_lt_one_iff_of_pos (by norm_num)]
  norm_num

/-! ### Gaussian reparameterization (`Reparametrize`, vq_vae.py lines 120-139) -/

namespace Reparametrize

/-- The KL-divergence term of `Reparametrize.forward` (vq_vae.py line 138):
`-0.5 * t.sum(1 + z_logstd - z_mean.pow(2) - z_logstd.exp())`, elementwise
over the two same-shaped tensors, here given by their flattened element
lists. -/
noncomputable def KLD (z_mean z_logstd : List ℝ) : ℝ :=
  -0.5 * (List.zipWith (fun m l => 1 + l - m ^ 2 - Real.exp l) z_mean z_logstd).sum

lemma term_nonpos (m l : ℝ) : 1 + l - m ^ 2 - Real.exp l ≤ 0 := by
  have h := Real.add_one_le_exp l
  nlinarith [sq_nonneg m]

lemma term_eq_zero_iff (m l : ℝ) :
    1 + l - m ^ 2 - Real.exp l = 0 ↔ m = 0 ∧ l = 0 := by
  constructor
  · intro h
    by_cases hl : l = 0
    · subst hl
      have hm2 : m ^ 2 = 0 := by
        have := Real.exp_zero
        nlinarith
      exact ⟨(pow_eq_zero_iff two_ne_zero).1 hm2, rfl⟩
    · exfalso
      have hstrict := Real.add_one_lt_exp hl
      nlinarith [sq_nonneg m]
  · rintro ⟨rfl, rfl⟩
    simp [Real.exp_zero]

lemma kld_sum_spec : ∀ (ms ls : List ℝ),
    (List.zipWith (fun m l => 1 + l - m ^ 2 - Real.exp l) ms ls).sum ≤ 0 ∧
    ((List.zipWith (fun m l => 1 + l - m ^ 2 - Real.exp l) ms ls).sum = 0 ↔
      ∀ p ∈ ms.zip ls, p.1 = 0 ∧ p.2 = 0)
  | [], ls => by simp
  | m :: ms, [] => by simp
  | m :: ms, l :: ls => by
      obtain ⟨ihle, ihiff⟩ := kld_sum_spec ms ls
      have hterm := term_nonpos m l
      constructor
      · simp only [List.zipWith_cons_cons, List.sum_cons]
        linarith
      · simp only [List.zipWith_cons_cons, List.sum_cons, List.zip_cons_cons]
        constructor
        · intro h
          have h1 : 1 + l - m ^ 2 - Real.exp l = 0 := by linarith
          have h2 : (List.zipWith (fun m l => 1 + l - m ^ 2 - Real.exp l) ms ls).sum = 0 := by
            linarith
          intro p hp
          rcases List.mem_cons.1 hp with rfl | hp'
          · exact (term_eq_zero_iff m l).1 h1
          · exact (ihiff.1 h2) p hp'
        · intro h
          obtain ⟨hm, hl⟩ := h (m, l) (List.mem_cons_self _ _)
          have h2 : (List.zipWith (fun m l => 1 + l - m ^ 2 - Real.exp l) ms ls).sum = 0 :=
            ihiff.2 (fun p hp => h p (List.mem_cons_of_mem _ hp))
          rw [h2, (term_eq_zero_iff m l).2 ⟨hm, hl⟩, add_zero]

end Reparametrize

open Reparametrize in
/-- C7: for every pair of same-shaped tensors `z_mean`, `z_logstd` (given
by their flattened element lists), the KL term of the Gaussian variant is
zero if and only if every element of `z_mean` and `z_logstd` is zero (the
standard normal latent), and is strictly positive otherwise. -/
theorem c7_kld_zero_iff (z_mean z_logstd : List ℝ)
    (hlen : z_mean.length = z_logstd.length) :
    (KLD z_mean z_logstd = 0 ↔ ∀ p ∈ z_mean.zip z_logstd, p.1 = 0 ∧ p.2 = 0) ∧
    ((¬ ∀ p ∈ z_mean.zip z_logstd, p.1 = 0 ∧ p.2 = 0) → 0 < KLD z_mean z_logstd) := by
  obtain ⟨hle, hiff⟩ := kld_sum_spec z_mean z_logstd
  constructor
  · rw [KLD, mul_eq_zero]
    constructor
    · intro h
      rcases h with h | h
      · norm_num at h
      · exact hiff.1 h
    · intro h
      exact Or.inr (hiff.2 h)
  · intro hnot
    have hne : (List.zipWith (fun m l => 1 + l - m ^ 2 - Real.exp l)
        z_mean z_logstd).sum ≠ 0 := fun h => hnot (hiff.1 h)
    have hlt : (List.zipWith (fun m l => 1 + l - m ^ 2 - Real.exp l)
        z_mean z_logstd).sum < 0 := lt_of_le_of_ne hle hne
    rw [KLD]
    nlinarith

/-- Witness for C7 on concrete same-shaped tensors. -/
theorem c7_kld_zero_iff_witness :
    ((Reparametrize.KLD [0, 1] [0, 0] = 0 ↔
        ∀ p ∈ (([0, 1] : List ℝ).zip ([0, 0] : List ℝ)), p.1 = 0 ∧ p.2 = 0) ∧
    ((¬ ∀ p ∈ (([0, 1] : List ℝ).zip ([0, 0] : List ℝ)), p.1 = 0 ∧ p.2 = 0) →
        0 < Reparametrize.KLD [0, 1] [0, 0])) :=
  c7_kld_zero_iff [0, 1] [0, 0] rfl

/-! ### Importance-weighted normalization (`IWAE.forward`, vq_vae.py lines 503-521) -/

namespace IWAE

/-- Maximum entry of a nonempty list (`t.max(log_ws, dim=1)` per sample
group; junk value `0` on the empty list, which never occurs since
`k ≥ 1`). -/
noncomputable def listMax : List ℝ → ℝ
  | [] => 0
  | x :: xs => xs.foldl max x

/-- The self-normalized importance weights of one input's `k`-sample group
(vq_vae.py lines 513-516): subtract the group maximum from every
unnormalized log-weight, exponentiate, and divide by the sum. -/
noncomputable def normalized_ws (log_ws : List ℝ) : List ℝ :=
  let ws := log_ws.map (fun l => Real.exp (l - listMax log_ws))
  ws.map (fun w => w / ws.sum)

lemma foldl_max_add (c : ℝ) :
    ∀ (xs : List ℝ) (x : ℝ),
      (xs.map (fun l => l + c)).foldl max (x + c) = xs.foldl max x + c
  | [], _ => rfl
  | y :: ys, x => by
      simp only [List.map_cons, List.foldl_cons]
      rw [max_add_add_right]
      exact foldl_max_add c ys (max x y)

lemma listMax_map_add (l : List ℝ) (c : ℝ) (h : l ≠ []) :
    listMax (l.map (fun x => x + c)) = listMax l + c := by
  cases l with
  | nil => exact absurd rfl h
  | cons x xs => exact foldl_max_add c xs x

lemma sum_map_exp_pos (l : List ℝ) (h : l ≠ []) : 0 < (l.map Real.exp).sum := by
  cases l with
  | nil => exact absurd rfl h
  | cons x xs =>
      simp only [List.map_cons, List.sum_cons]
      refine add_pos_of_pos_of_nonneg (Real.exp_pos x) ?_
      refine List.sum_nonneg ?_
      intro y hy
      obtain ⟨z, _, rfl⟩ := List.mem_map.1 hy
      exact (Real.exp_pos z).le

end IWAE

open IWAE in
/-- C8: adding any constant `c` to every sample's unnormalized log-weight
within one input's `k`-sample group before the log-sum-exp normalization
leaves the normalized weights unchanged; in particular the max-subtraction
performed by the code yields exactly the plain softmax
`exp(l_i) / Σ_j exp(l_j)` of the unshifted log-weights. -/
theorem c8_iwae_shift_invariance (log_ws : List ℝ) (c : ℝ) (hne : log_ws ≠ []) :
    normalized_ws (log_ws.map (fun l => l + c)) = normalized_ws log_ws ∧
    normalized_ws log_ws
      = log_ws.map (fun l => Real.exp l / (log_ws.map Real.exp).sum) := by
  constructor
  · have hmax := listMax_map_add log_ws c hne
    have hws : (log_ws.map (fun l => l + c)).map
          (fun l => Real.exp (l - listMax (log_ws.map (fun x => x + c))))
        = log_ws.map (fun l => Real.exp (l - listMax log_ws)) := by
      rw [hmax, List.map_map]
      refine List.map_congr_left ?_
      intro x _
      simp only [Function.comp_apply]
      ring_nf
    rw [normalized_ws, normalized_ws, hws]
  · have hS : 0 < (log_ws.map Real.exp).sum := sum_map_exp_pos log_ws hne
    have hsub : ∀ l : ℝ, Real.exp (l - listMax log_ws)
        = Real.exp l * (Real.exp (listMax log_ws))⁻¹ := by
      intro l
      rw [Real.exp_sub, div_eq_mul_inv]
    have hmap : log_ws.map (fun l => Real.exp (l - listMax log_ws))
        = log_ws.map (fun l => Real.exp l * (Real.exp (listMax log_ws))⁻¹) :=
      List.map_congr_left (fun l _ => hsub l)
    have hTsum : (log_ws.map (fun l => Real.exp l * (Real.exp (listMax log_ws))⁻¹)).sum
        = (log_ws.map Real.exp).sum * (Real.exp (listMax log_ws))⁻¹ := by
      rw [← List.sum_map_mul_right]
    rw [normalized_ws, hmap, List.map_map]
    refine List.map_congr_left ?_
    intro l _
    simp only [Function.comp_apply, hTsum]
    have hMne : (Real.exp (listMax log_ws))⁻¹ ≠ 0 := inv_ne_zero (Real.exp_ne_zero _)
    rw [div_eq_div_iff (mul_ne_zero (ne_of_gt hS) hMne) (ne_of_gt hS)]
    ring

/-- Witness for C8 at a concrete two-sample group and shift. -/
theorem c8_iwae_shift_invariance_witness :
    IWAE.normalized_ws (([0, 1] : List ℝ).map (fun l => l + 3))
        = IWAE.normalized_ws [0, 1] ∧
    IWAE.normalized_ws [0, 1]
      = ([0, 1] : List ℝ).map (fun l => Real.exp l / (([0, 1] : List ℝ).map Real.exp).sum) :=
  c8_iwae_shift_invariance [0, 1] 3 (by simp)

/-! ### Configuration (`params.py`) and model construction
(`VQ_VAE.__init__`, vq_vae.py lines 229-289)

`DynaMorphConfig.__getitem__` (params.py lines 63-68) returns the stored
value when the key is present and prints a message and returns Python
`None` otherwise — it never raises.  A missing key therefore surfaces only
where the `None` is subsequently *used*: `len(None)`, `None // 2`,
`range(None)` and passing `None` as a layer size all raise `TypeError`
inside `__init__` (construction time), while values that are merely stored
(`commitment_cost`, `alpha`) only raise when the forward pass multiplies
with them (batch time). -/

namespace DynaMorphConfig

end DynaMorphConfig

/-- A batch tensor: samples, then channels, then flattened pixels. -/
abbrev Tensor3 := List (List (List ℝ))

/-- Elementwise map over a batch tensor. -/
def tmap (f : ℝ → ℝ) (x : Tensor3) : Tensor3 := x.map (List.map (List.map f))

/-- Elementwise combination of two same-shaped batch tensors. -/
def tzip (f : ℝ → ℝ → ℝ) (x y : Tensor3) : Tensor3 :=
  List.zipWith (List.zipWith (List.zipWith f)) x y

/-- Elementwise product (`a * b` on tensors). -/
def tmul : Tensor3 → Tensor3 → Tensor3 := tzip (fun a b => a * b)

/-- Elementwise sum (`a + b` on tensors). -/
def tadd : Tensor3 → Tensor3 → Tensor3 := tzip (fun a b => a + b)

/-- `t.ones_like(inputs)` (vq_vae.py line 312 and analogues). -/
def tones (x : Tensor3) : Tensor3 := tmap (fun _ => 1) x

/-- Sum of all elements (`t.sum` with no dim). -/
def tsum (x : Tensor3) : ℝ := (x.map (fun s => (s.map List.sum).sum)).sum

/-- Number of elements (`t.numel`). -/
def tcount (x : Tensor3) : Nat := (x.map (fun s => (s.map List.length).sum)).sum

/-- Mean of all elements (`t.mean` with no dim). -/
noncomputable def tmean (x : Tensor3) : ℝ := tsum x / tcount x

/-- Per-sample sum over channel and pixel dims (`t.sum(..., dim=(1,2,3))`,
vq_vae.py lines 507-509). -/
def perSampleSum (x : Tensor3) : List ℝ := x.map (fun s => (s.map List.sum).sum)

/-- Elementwise `mse_loss(a, b, reduction='none')`. -/
def mseElem (a b : Tensor3) : Tensor3 := tzip (fun u v => (u - v) ^ 2) a b

/-- Division of every pixel of channel `c` by `channel_var[c]`
(the `/ self.channel_var` broadcast, vq_vae.py line 313 and analogues). -/
noncomputable def divChannelVar (x : Tensor3) (channel_var : List ℝ) : Tensor3 :=
  x.map (fun s => List.zipWith (fun ch v => ch.map (fun u => u / v)) s channel_var)

/-- `z_before.reshape((z_before.shape[0], -1))`: flatten one sample. -/
def flattenSample (s : List (List ℝ)) : List ℝ := s.join

/-- `sim_mat` (vq_vae.py lines 319-320): pairwise mean squared distances
between the flattened per-sample latents of the batch. -/
noncomputable def pairwiseSim (z : List (List ℝ)) : List (List ℝ) :=
  z.map (fun zi => z.map (fun zj =>
    ((List.zipWith (fun a b => (a - b) ^ 2) zi zj).sum) / (zi.length : ℝ)))

/-- `(sim_mat * time_matching_mat).sum()` (vq_vae.py line 322). -/
def dotMat (a b : List (List ℝ)) : ℝ :=
  (List.zipWith (fun ra rb => (List.zipWith (fun u v => u * v) ra rb).sum) a b).sum

/-- The loss dictionary returned by `VQ_VAE.forward` (vq_vae.py lines
324-329); `time_matching_loss` is `None` when no relation matrix is
supplied (line 315). -/
structure VQOut where
  decoded : Tensor3
  recon_loss : ℝ
  commitment_loss : ℝ
  time_matching_loss : Option ℝ
  total_loss : ℝ
  perplexity : ℝ

/-- `VQ_VAE.forward` (vq_vae.py lines 291-329) with the encoder `enc`, the
quantizer module `vq` (returning quantized output, commitment loss and
perplexity) and the decoder `dec` as opaque parameters: a missing
`batch_mask` is replaced by `t.ones_like(inputs)` (lines 311-312), and a
missing `time_matching_mat` skips the matching term entirely (lines
315-316), leaving `total_loss = recon_loss + c_loss`. -/
noncomputable def VQ_VAE.forward (enc : Tensor3 → Tensor3)
    (vq : Tensor3 → Tensor3 × ℝ × ℝ) (dec : Tensor3 → Tensor3)
    (channel_var : List ℝ) (alpha : ℝ) (inputs : Tensor3)
    (time_matching_mat : Option (List (List ℝ))) (batch_mask : Option Tensor3) :
    VQOut :=
  let z_before := enc inputs
  let r := vq z_before
  let decoded := dec r.1
  let mask := batch_mask.getD (tones inputs)
  let recon_loss := tmean (divChannelVar (mseElem (tmul decoded mask) (tmul inputs mask))
    channel_var)
  match time_matching_mat with
  | none =>
      ⟨decoded, recon_loss, r.2.1, none, recon_loss + r.2.1, r.2.2⟩
  | some tm =>
      let z_flat := z_before.map flattenSample
      let tml := dotMat (pairwiseSim z_flat) tm
      ⟨decoded, recon_loss, r.2.1, some tml, recon_loss + r.2.1 + tml * alpha, r.2.2⟩

/-- The loss dictionary returned by `VAE.forward` (vq_vae.py lines
427-432). -/
structure VAEOut where
  decoded : Tensor3
  recon_loss : ℝ
  KLD : ℝ
  time_matching_loss : Option ℝ
  total_loss : ℝ
  perplexity : ℝ

/-- `VAE.forward` (vq_vae.py lines 389-432) with opaque encoder/decoder;
the Gaussian noise of `Reparametrize.forward` is the explicit `epsNoise`
tensor; the returned `perplexity` entry is `t.zeros(())` (line 432). -/
noncomputable def VAE.forward (enc dec : Tensor3 → Tensor3) (num_hiddens : Nat)
    (channel_var : List ℝ) (alpha : ℝ) (epsNoise : Tensor3) (inputs : Tensor3)
    (time_matching_mat : Option (List (List ℝ))) (batch_mask : Option Tensor3) :
    VAEOut :=
  let z_before := enc inputs
  let z_mean := z_before.map (fun s => s.take num_hiddens)
  let z_logstd := z_before.map (fun s => s.drop num_hiddens)
  let z_std := tmap (fun l => Real.exp (0.5 * l)) z_logstd
  let z_after := tadd z_mean (tmul z_std epsNoise)
  let KLDv := Reparametrize.KLD (flattenSample (z_mean.map flattenSample))
    (flattenSample (z_logstd.map flattenSample))
  let decoded := dec z_after
  let mask := batch_mask.getD (tones inputs)
  let recon_loss := tsum (divChannelVar (mseElem (tmul decoded mask) (tmul inputs mask))
    channel_var)
  match time_matching_mat with
  | none =>
      ⟨decoded, recon_loss / (inputs.length * 32768), KLDv, none, recon_loss + KLDv, 0⟩
  | some tm =>
      let tml := dotMat (pairwiseSim (z_mean.map flattenSample)) tm
      ⟨decoded, recon_loss / (inputs.length * 32768), KLDv, some tml,
        recon_loss + KLDv + tml * alpha, 0⟩

/-- The loss dictionary returned by `IWAE.forward` (vq_vae.py lines
522-526); here `time_matching_loss` is the number `0.` rather than `None`
when no relation matrix is supplied (line 494). -/
structure IWAEOut where
  recon_loss : ℝ
  time_matching_loss : ℝ
  total_loss : ℝ
  perplexity : ℝ

/-- `IWAE.forward` (vq_vae.py lines 471-526) with opaque encoder/decoder;
`epss` is the list of the `k` noise tensors drawn by `Reparametrize_IW`;
the per-group log-sum-exp normalization of lines 513-516 is
`IWAE.normalized_ws` applied to each sample's row of stacked log-weights;
the returned `perplexity` entry is `t.zeros(())` (line 526). -/
noncomputable def IWAE.forward (enc dec : Tensor3 → Tensor3) (num_hiddens : Nat)
    (channel_var : List ℝ) (epss : List Tensor3) (inputs : Tensor3)
    (time_matching_mat : Option (List (List ℝ))) (batch_mask : Option Tensor3) :
    IWAEOut :=
  let z_before := enc inputs
  let z_mean := z_before.map (fun s => s.take num_hiddens)
  let z_logstd := z_before.map (fun s => s.drop num_hiddens)
  let z_std := tmap (fun l => Real.exp (0.5 * l)) z_logstd
  let mask := batch_mask.getD (tones inputs)
  let tml := match time_matching_mat with
    | none => (0 : ℝ)
    | some tm => dotMat (pairwiseSim (z_mean.map flattenSample)) tm
  let samples := epss.map (fun eps =>
    let z := tadd z_mean (tmul z_std eps)
    let decoded := dec z
    let log_p_x_z := (perSampleSum (divChannelVar
      (mseElem (tmul decoded mask) (tmul inputs mask)) channel_var)).map (fun v => -v)
    let log_p_z := (perSampleSum (tmap (fun zi => 0.5 * zi ^ 2) z)).map (fun v => -v)
    let log_q_z_x := (perSampleSum (tzip (fun e l => 0.5 * e ^ 2 + l) eps
      z_logstd)).map (fun v => -v)
    let log_w := List.zipWith (fun a b => a - b)
      (List.zipWith (fun a b => a + b) log_p_x_z log_p_z) log_q_z_x
    (log_w, log_p_x_z.map (fun v => -v)))
  let log_ws := (samples.map (fun s => s.1)).transpose
  let recon_losses := (samples.map (fun s => s.2)).transpose
  let nws := log_ws.map IWAE.normalized_ws
  let loss := -(List.zipWith (fun a b => (List.zipWith (fun u v => u * v) a b).sum)
    nws log_ws).sum
  let recon_loss := (List.zipWith (fun a b => (List.zipWith (fun u v => u * v) a b).sum)
    nws recon_losses).sum
  { recon_loss := recon_loss / (inputs.length * 32768),
    time_matching_loss := tml,
    total_loss := loss + tml,
    perplexity := 0 }

/-- The loss dictionary returned by `AAE.forward` (vq_vae.py lines
634-638). -/
structure AAEOut where
  decoded : Tensor3
  recon_loss : ℝ
  time_matching_loss : Option ℝ
  total_loss : ℝ
  perplexity : ℝ

/-- `AAE.forward` (vq_vae.py lines 602-638) with opaque encoder/decoder:
a deterministic code, reconstruction loss only (plus the optional matching
term); the returned `perplexity` entry is `t.zeros(())` (line 638). -/
noncomputable def AAE.forward (enc dec : Tensor3 → Tensor3)
    (channel_var : List ℝ) (alpha : ℝ) (inputs : Tensor3)
    (time_matching_mat : Option (List (List ℝ))) (batch_mask : Option Tensor3) :
    AAEOut :=
  let z := enc inputs
  let decoded := dec z
  let mask := batch_mask.getD (tones inputs)
  let recon_loss := tmean (divChannelVar (mseElem (tmul decoded mask) (tmul inputs mask))
    channel_var)
  match time_matching_mat with
  | none => ⟨decoded, recon_loss, none, recon_loss, 0⟩
  | some tm =>
      let tml := dotMat (pairwiseSim (z.map flattenSample)) tm
      ⟨decoded, recon_loss, some tml, recon_loss + tml * alpha, 0⟩

/-- C10: the forward passes of the Gaussian (`VAE`), importance-weighted
(`IWAE`) and adversarial (`AAE`) variants always return a `perplexity`
entry equal to `0` — a constant strictly below the documented range
`[1, num_embeddings]` — for every choice of networks, noise, inputs,
relation matrix and mask. -/
theorem c10_constant_zero_perplexity :
    ∀ (enc dec enc2 dec2 enc3 dec3 : Tensor3 → Tensor3) (num_hiddens : Nat)
      (channel_var channel_var2 channel_var3 : List ℝ) (alpha alpha3 : ℝ)
      (epsNoise : Tensor3) (epss : List Tensor3) (inputs : Tensor3)
      (tm : Option (List (List ℝ))) (mask : Option Tensor3),
      (VAE.forward enc dec num_hiddens channel_var alpha epsNoise inputs
        tm mask).perplexity = 0 ∧
      (IWAE.forward enc2 dec2 num_hiddens channel_var2 epss inputs
        tm mask).perplexity = 0 ∧
      (AAE.forward enc3 dec3 channel_var3 alpha3 inputs tm mask).perplexity = 0 ∧
      ¬ (1 : ℝ) ≤ 0 := by
  intro enc dec enc2 dec2 enc3 dec3 num_hiddens cv cv2 cv3 alpha alpha3 epsNoise
    epss inputs tm mask
  refine ⟨?_, rfl, ?_, by norm_num⟩
  · cases tm <;> rfl
  · cases tm <;> rfl

/-! ### Standard training orchestrator (`train`, vq_vae.py lines 667-746) -/

/-- `n_batches = int(np.ceil(len(dataset)/batch_size))` (vq_vae.py line
702): the number of minibatches iterated per epoch. -/
def nBatches (datasetLen batch_size : Nat) : Nat :=
  (datasetLen + batch_size - 1) / batch_size

/-- `batch = dataset[i*batch_size:(i+1)*batch_size][0]` (vq_vae.py line
709): the `i`-th minibatch slice of the dataset (the last one may be
short). -/
def batchSlice {α : Type} (dataset : List α) (batch_size i : Nat) : List α :=
  (dataset.drop (i * batch_size)).take batch_size

/-- C3 counterexample: an empty dataset yields `n_batches = ceil(0/bs) = 0`
— zero batches per epoch, not the claimed "exactly one (short) batch". -/
theorem c3_train_counterexample : nBatches 0 16 = 0 ∧ nBatches 0 16 ≠ 1 :=
  ⟨rfl, by decide⟩

/-- C3 (amended): a nonempty dataset with `batch_size` at least its size
yields exactly one (short) batch per epoch, and that batch is the whole
dataset; an empty dataset instead yields zero batches per epoch; a missing
relation matrix is treated as "no auxiliary loss" (`time_matching_loss`
stays `None` and `total_loss = recon_loss + commitment_loss`), and a
missing mask is treated as the full-weight mask `t.ones_like(inputs)` —
neither is an error. -/
theorem c3_train_edge_policy :
    (∀ (α : Type) (ds : List α) (bs : Nat), ds ≠ [] → ds.length ≤ bs →
        nBatches ds.length bs = 1 ∧ batchSlice ds bs 0 = ds) ∧
    (∀ bs : Nat, 0 < bs → nBatches 0 bs = 0) ∧
    (∀ (enc : Tensor3 → Tensor3) (vq : Tensor3 → Tensor3 × ℝ × ℝ)
        (dec : Tensor3 → Tensor3) (channel_var : List ℝ) (alpha : ℝ)
        (inputs : Tensor3) (mask : Option Tensor3),
        (VQ_VAE.forward enc vq dec channel_var alpha inputs none mask).time_matching_loss
            = none ∧
        (VQ_VAE.forward enc vq dec channel_var alpha inputs none mask).total_loss
            = (VQ_VAE.forward enc vq dec channel_var alpha inputs none mask).recon_loss
              + (VQ_VAE.forward enc vq dec channel_var alpha inputs
                  none mask).commitment_loss) ∧
    (∀ (enc : Tensor3 → Tensor3) (vq : Tensor3 → Tensor3 × ℝ × ℝ)
        (dec : Tensor3 → Tensor3) (channel_var : List ℝ) (alpha : ℝ)
        (inputs : Tensor3) (tmm : Option (List (List ℝ))),
        VQ_VAE.forward enc vq dec channel_var alpha inputs tmm none
          = VQ_VAE.forward enc vq dec channel_var alpha inputs tmm
              (some (tones inputs))) := by
  refine ⟨?_, ?_, ?_, ?_⟩
  · intro α ds bs hne hlen
    have hpos : 0 < ds.length := List.length_pos.2 hne
    constructor
    · refine Nat.div_eq_of_lt_le ?_ ?_ <;> omega
    · rw [batchSlice, Nat.zero_mul, List.drop_zero]
      exact List.take_of_length_le hlen
  · intro bs hbs
    rw [nBatches, Nat.zero_add]
    exact Nat.div_eq_of_lt_le (by omega) (by omega)
  · intro enc vq dec cv alpha inputs mask
    exact ⟨rfl, rfl⟩
  · intro enc vq dec cv alpha inputs tmm
    cases tmm <;> rfl

/-- Witness for C3 at a concrete dataset, batch size and forward pass. -/
theorem c3_train_edge_policy_witness :
    (nBatches ([7] : List Nat).length 16 = 1 ∧ batchSlice ([7] : List Nat) 16 0 = [7]) ∧
    nBatches 0 16 = 0 ∧
    ((VQ_VAE.forward id (fun z => (z, 0, 0)) id [] 0 [] none none).time_matching_loss
        = none ∧
      (VQ_VAE.forward id (fun z => (z, 0, 0)) id [] 0 [] none none).total_loss
        = (VQ_VAE.forward id (fun z => (z, 0, 0)) id [] 0 [] none none).recon_loss
          + (VQ_VAE.forward id (fun z => (z, 0, 0)) id [] 0 [] none none).commitment_loss) ∧
    VQ_VAE.forward id (fun z => (z, 0, 0)) id [] 0 [] none none
      = VQ_VAE.forward id (fun z => (z, 0, 0)) id [] 0 [] none (some (tones [])) :=
  ⟨c3_train_edge_policy.1 Nat [7] 16 (by decide) (by decide),
   c3_train_edge_policy.2.1 16 (by decide),
   c3_train_edge_policy.2.2.1 id (fun z => (z, 0, 0)) id [] 0 [] none,
   c3_train_edge_policy.2.2.2 id (fun z => (z, 0, 0)) id [] 0 [] none⟩

/-! ### Relation/trajectory reorderer
(`reorder_with_trajectories`, vq_vae.py lines 1022-1084)

The relation mapping `{(i, j): kind}` is a list of key/value pairs in dict
iteration order (kind 1 = SAME_TRAJECTORY, kind 2 = ADJACENT_FRAME).  The
seeded `np.random.choice(list(inds_pool))` is modelled by a caller-supplied
selection function `choose` applied to the current pool. -/

namespace Reorder

/-- A relation mapping in dict iteration order. -/
abbrev Rel := List ((Nat × Nat) × Nat)

/-- The adjacency dict of vq_vae.py lines 1041-1046: `relation_dict[a]`
lists, in dict order, the second members of kind-2 pairs whose first member
is `a`.  The key `a` is present in the Python dict exactly when this list
is nonempty, so `relation_dict[a]` raises `KeyError` exactly when the list
is empty. -/
def relation_dict (rels : Rel) (a : Nat) : List Nat :=
  (rels.filter (fun p => p.2 == 2 && p.1.1 == a)).map (fun p => p.1.2)

/-- One directed step along a stored ADJACENT_FRAME relation. -/
def StepA (adj : Nat → List Nat) (a b : Nat) : Prop := b ∈ adj a

/-- Reachability along stored ADJACENT_FRAME relations. -/
def ReachA (adj : Nat → List Nat) : Nat → Nat → Prop :=
  Relation.ReflTransGen (StepA adj)

/-- The inner for-loop of the BFS (vq_vae.py lines 1062-1065): append each
neighbour that is not yet in `traj` to both `traj` and the queue,
sequentially. -/
def addNew : List Nat → List Nat → List Nat → List Nat × List Nat
  | traj, q, [] => (traj, q)
  | traj, q, e :: es =>
      if e ∈ traj then addNew traj q es else addNew (traj ++ [e]) (q ++ [e]) es

/-- Result of the BFS: `err` models the `KeyError` raised by
`relation_dict[elem]` (vq_vae.py line 1061) when a dequeued element has no
adjacency entry. -/
inductive BfsOut where
  | err
  | ok (traj : List Nat)
deriving DecidableEq

/-- The BFS of vq_vae.py lines 1053-1065 with explicit fuel; `none` means
the fuel ran out (`bfsFuel` below always suffices, the Python loop runs
unboundedly). -/
def bfs (adj : Nat → List Nat) : Nat → List Nat → List Nat → Option BfsOut
  | _, [], traj => some (.ok traj)
  | 0, _ :: _, _ => none
  | fuel + 1, e :: q, traj =>
      if adj e = [] then some .err
      else
        let p := addNew traj q (adj e)
        bfs adj fuel p.2 p.1

/-- Fuel that always suffices for the BFS on the relations `rels`. -/
def bfsFuel (rels : Rel) : Nat := 2 * rels.length + 1

/-- `inds_pool.remove(e)` for every `e` of `traj` in order (vq_vae.py lines
1067-1068); `none` models the `KeyError` of removing an absent element. -/
def removeEach : List Nat → List Nat → Option (List Nat)
  | pool, [] => some pool
  | pool, e :: es => if e ∈ pool then removeEach (pool.erase e) es else none

/-- The while-loop of vq_vae.py lines 1047-1068: pick `rand_ind` from the
pool; emit it as a singleton when it has no adjacency entry, otherwise run
the BFS from it and emit the whole trajectory block; remove the emitted
block from the pool.  `bf` is the BFS fuel and `fuel` bounds the number of
loop iterations (the initial pool size always suffices). -/
def reorderLoop (adj : Nat → List Nat) (choose : List Nat → Nat) (bf : Nat) :
    Nat → List Nat → List Nat → Option (List Nat)
  | 0, pool, acc => if pool = [] then some acc else none
  | fuel + 1, pool, acc =>
      if pool = [] then some acc
      else
        let r := choose pool
        if adj r = [] then
          if r ∈ pool then reorderLoop adj choose bf fuel (pool.erase r) (acc ++ [r])
          else none
        else
          match bfs adj bf [r] [r] with
          | some (.ok traj) =>
              match removeEach pool traj with
              | some pool2 => reorderLoop adj choose bf fuel pool2 (acc ++ traj)
              | none => none
          | _ => none

/-- `reorder_with_trajectories` (vq_vae.py lines 1022-1084), returning the
permutation `inds_in_order`; `none` models a runtime error: a `KeyError`
inside the BFS or the pool removal, or the failure of the sparse-matrix
construction at lines 1071-1082 (`new_relations[:, 0]` raises `IndexError`
on an empty dict, a kind other than 1/2 makes `values` shorter than
`new_relations`, and an index outside `[0, N)` is rejected by
`csr_matrix`). -/
def reorder_with_trajectories (N : Nat) (rels : Rel) (choose : List Nat → Nat) :
    Option (List Nat) :=
  match reorderLoop (relation_dict rels) choose (bfsFuel rels) N (List.range N) [] with
  | none => none
  | some inds =>
      if rels ≠ [] ∧ ∀ p ∈ rels, (p.2 = 1 ∨ p.2 = 2) ∧ p.1.1 < N ∧ p.1.2 < N
      then some inds else none

/-- The weight encoding of vq_vae.py lines 1073-1078: SAME_TRAJECTORY
pairs get `0.1`, ADJACENT_FRAME pairs get `1.1`. -/
def relWeight (kind : Nat) : ℚ := if kind = 1 then 0.1 else if kind = 2 then 1.1 else 0

/-- Entry `(i, j)` of the sparse relation matrix built at vq_vae.py lines
1079-1082 (`csr_matrix` sums duplicate coordinates; a dict has none). -/
def relationMatrix (rels : Rel) (i j : Nat) : ℚ :=
  ((rels.filter (fun p => p.1.1 == i && p.1.2 == j)).map (fun p => relWeight p.2)).sum

/-- Entry `(a, b)` of the reordered matrix
`relation_mat[inds_in_order][:, inds_in_order]` (vq_vae.py line 1083). -/
def reorderedMatrix (rels : Rel) (inds : List Nat) (a b : Nat) : ℚ :=
  relationMatrix rels (inds.getD a 0) (inds.getD b 0)

lemma getD_mem {α : Type} {l : List α} {i : Nat} (d : α) (hi : i < l.length) :
    l.getD i d ∈ l := by
  rw [List.getD_eq_getElem _ _ hi]
  exact List.getElem_mem _

/-- Reachability stays inside a set closed under adjacency. -/
lemma reach_mem_of_closed {adj : Nat → List Nat} {T : List Nat}
    (hcl : ∀ x ∈ T, ∀ y ∈ adj x, y ∈ T) {a b : Nat}
    (h : ReachA adj a b) (ha : a ∈ T) : b ∈ T := by
  induction h with
  | refl => exact ha
  | tail _hab hbc ih => exact hcl _ ih _ hbc

lemma addNew_spec : ∀ (news traj q : List Nat),
    ∃ d : List Nat, addNew traj q news = (traj ++ d, q ++ d) ∧ d.Nodup ∧
      (∀ x ∈ d, x ∈ news ∧ x ∉ traj) ∧ (∀ x ∈ news, x ∈ traj ++ d)
  | [], traj, q => ⟨[], by simp [addNew], List.nodup_nil, by simp, by simp⟩
  | e :: es, traj, q => by
      by_cases he : e ∈ traj
      · obtain ⟨d, h1, h2, h3, h4⟩ := addNew_spec es traj q
        refine ⟨d, by simpa [addNew, he] using h1, h2, ?_, ?_⟩
        · exact fun x hx => ⟨List.mem_cons_of_mem _ (h3 x hx).1, (h3 x hx).2⟩
        · intro x hx
          rcases List.mem_cons.1 hx with rfl | hx'
          · exact List.mem_append.2 (Or.inl he)
          · exact h4 x hx'
      · obtain ⟨d, h1, h2, h3, h4⟩ := addNew_spec es (traj ++ [e]) (q ++ [e])
        have hde : e ∉ d := fun hed => by
          have := (h3 e hed).2
          simp at this
        refine ⟨e :: d, ?_, List.nodup_cons.2 ⟨hde, h2⟩, ?_, ?_⟩
        · rw [addNew, if_neg he, h1, List.append_assoc, List.append_assoc]
          rfl
        · intro x hx
          rcases List.mem_cons.1 hx with rfl | hx'
          · exact ⟨List.mem_cons_self _ _, he⟩
          · refine ⟨List.mem_cons_of_mem _ (h3 x hx').1, fun hxt => ?_⟩
            exact (h3 x hx').2 (List.mem_append.2 (Or.inl hxt))
        · intro x hx
          rcases List.mem_cons.1 hx with rfl | hx'
          · exact List.mem_append.2 (Or.inr (List.mem_cons_self _ _))
          · have := h4 x hx'
            rw [List.append_assoc, List.singleton_append] at this
            exact this

lemma bfs_done (adj : Nat → List Nat) (fuel : Nat) (traj : List Nat) :
    bfs adj fuel [] traj = some (.ok traj) := by
  cases fuel <;> rfl

/-- Main BFS induction: with symmetric adjacency, a queue of elements that
all have adjacency entries, and enough fuel, the BFS succeeds and returns
a closed, duplicate-free superset of `traj` all of whose members are
reachable from the root `s`. -/
lemma bfs_spec (adj : Nat → List Nat) (U : Finset Nat)
    (hU : ∀ a, ∀ b ∈ adj a, b ∈ U)
    (hsym : ∀ a b, b ∈ adj a → a ∈ adj b) (s : Nat) :
    ∀ (fuel : Nat) (q traj : List Nat),
      (∀ x ∈ q, x ∈ traj) → traj.Nodup →
      (∀ x ∈ traj, x ∉ q → ∀ y ∈ adj x, y ∈ traj) →
      (∀ x ∈ traj, ReachA adj s x) →
      (∀ x ∈ q, adj x ≠ []) →
      q.length + 2 * (U \ traj.toFinset).card ≤ fuel →
      ∃ T, bfs adj fuel q traj = some (.ok T) ∧
        (∀ x ∈ traj, x ∈ T) ∧ T.Nodup ∧
        (∀ x ∈ T, ReachA adj s x) ∧
        (∀ x ∈ T, ∀ y ∈ adj x, y ∈ T) := by
  intro fuel
  induction fuel with
  | zero =>
      intro q traj hq htn hcl hreach hqa hfuel
      cases q with
      | nil =>
          exact ⟨traj, bfs_done adj 0 traj, fun x hx => hx, htn, hreach,
            fun x hx => hcl x hx (by simp)⟩
      | cons e q' => simp at hfuel
  | succ fuel ih =>
      intro q traj hq htn hcl hreach hqa hfuel
      cases q with
      | nil =>
          exact ⟨traj, bfs_done adj _ traj, fun x hx => hx, htn, hreach,
            fun x hx => hcl x hx (by simp)⟩
      | cons e q' =>
          have hae : adj e ≠ [] := hqa e (List.mem_cons_self _ _)
          have het : e ∈ traj := hq e (List.mem_cons_self _ _)
          obtain ⟨d, hdeq, hdnd, hdmem, hdcov⟩ := addNew_spec (adj e) traj q'
          have hstep : bfs adj (fuel + 1) (e :: q') traj = bfs adj fuel (q' ++ d) (traj ++ d) := by
            rw [bfs, if_neg hae, hdeq]
          rw [hstep]
          have hdU : ∀ x ∈ d, x ∈ U := fun x hx => hU e _ (hdmem x hx).1
          have hdisj : List.Disjoint traj d := fun x hx hxd => (hdmem x hxd).2 hx
          have hsubF : d.toFinset ⊆ U \ traj.toFinset := by
            intro x hx
            rw [List.mem_toFinset] at hx
            rw [Finset.mem_sdiff, List.mem_toFinset]
            exact ⟨hdU x hx, (hdmem x hx).2⟩
          have hcardd : d.toFinset.card = d.length := List.toFinset_card_of_nodup hdnd
          have hdlen : d.length ≤ (U \ traj.toFinset).card := by
            rw [← hcardd]
            exact Finset.card_le_card hsubF
          have hsplit2 : U \ (traj.toFinset ∪ d.toFinset)
              = (U \ traj.toFinset) \ d.toFinset := by
            ext x
            simp only [Finset.mem_sdiff, Finset.mem_union]
            tauto
          have hcard : (U \ (traj ++ d).toFinset).card
              = (U \ traj.toFinset).card - d.length := by
            rw [List.toFinset_append, hsplit2, Finset.card_sdiff hsubF, hcardd]
          have hI1 : ∀ x ∈ q' ++ d, x ∈ traj ++ d := by
            intro x hx
            rcases List.mem_append.1 hx with hx' | hx'
            · exact List.mem_append.2 (Or.inl (hq x (List.mem_cons_of_mem _ hx')))
            · exact List.mem_append.2 (Or.inr hx')
          have hI2 : (traj ++ d).Nodup := htn.append hdnd hdisj
          have hI3 : ∀ x ∈ traj ++ d, x ∉ q' ++ d → ∀ y ∈ adj x, y ∈ traj ++ d := by
            intro x hx hxq y hy
            rcases List.mem_append.1 hx with hx' | hx'
            · by_cases hxe : x = e
              · subst hxe
                exact hdcov y hy
              · have hxq' : x ∉ e :: q' := by
                  intro hmem
                  rcases List.mem_cons.1 hmem with h | h
                  · exact hxe h
                  · exact hxq (List.mem_append.2 (Or.inl h))
                exact List.mem_append.2 (Or.inl (hcl x hx' hxq' y hy))
            · exfalso
              exact hxq (List.mem_append.2 (Or.inr hx'))
          have hI4 : ∀ x ∈ traj ++ d, ReachA adj s x := by
            intro x hx
            rcases List.mem_append.1 hx with hx' | hx'
            · exact hreach x hx'
            · exact Relation.ReflTransGen.tail (hreach e het) (hdmem x hx').1
          have hI5 : ∀ x ∈ q' ++ d, adj x ≠ [] := by
            intro x hx
            rcases List.mem_append.1 hx with hx' | hx'
            · exact hqa x (List.mem_cons_of_mem _ hx')
            · intro hempty
              have := hsym e x (hdmem x hx').1
              rw [hempty] at this
              simp at this
          have hI6 : (q' ++ d).length + 2 * (U \ (traj ++ d).toFinset).card ≤ fuel := by
            rw [List.length_append, hcard]
            have hflen : (e :: q').length + 2 * (U \ traj.toFinset).card ≤ fuel + 1 := hfuel
            simp only [List.length_cons] at hflen
            omega
          obtain ⟨T, hT1, hT2, hT3, hT4, hT5⟩ :=
            ih (q' ++ d) (traj ++ d) hI1 hI2 hI3 hI4 hI5 hI6
          exact ⟨T, hT1, fun x hx => hT2 x (List.mem_append.2 (Or.inl hx)), hT3, hT4, hT5⟩

/-- The second components of the kind-2 relations: a finite superset of
every adjacency list. -/
def targets (rels : Rel) : Finset Nat :=
  (rels.filterMap (fun p => if p.2 = 2 then some p.1.2 else none)).toFinset

lemma mem_targets {rels : Rel} {a b : Nat} (h : b ∈ relation_dict rels a) :
    b ∈ targets rels := by
  rw [relation_dict] at h
  obtain ⟨p, hp, rfl⟩ := List.mem_map.1 h
  have hcond := List.of_mem_filter hp
  rw [Bool.and_eq_true, beq_iff_eq, beq_iff_eq] at hcond
  rw [targets, List.mem_toFinset, List.mem_filterMap]
  exact ⟨p, List.mem_of_mem_filter hp, by rw [if_pos hcond.1]⟩

lemma targets_card_le (rels : Rel) : (targets rels).card ≤ rels.length :=
  le_trans (List.toFinset_card_le _) (List.length_filterMap_le _ _)

lemma bfs_fuel_ok (rels : Rel) (X : Finset Nat) :
    1 + 2 * ((targets rels) \ X).card ≤ bfsFuel rels := by
  have h1 : ((targets rels) \ X).card ≤ (targets rels).card :=
    Finset.card_le_card (Finset.sdiff_subset)
  have h2 := targets_card_le rels
  rw [bfsFuel]
  omega

/-- Reachability is symmetric when the stored adjacency is. -/
lemma reach_symm {adj : Nat → List Nat}
    (hsym : ∀ a b, b ∈ adj a → a ∈ adj b) {a b : Nat}
    (h : ReachA adj a b) : ReachA adj b a :=
  Relation.ReflTransGen.symmetric (fun x y hxy => hsym x y hxy) h

/-- The BFS from a start that has an adjacency entry succeeds (also on
graphs with cycles) and collects exactly the set of indices reachable from
the start, without duplicates. -/
lemma bfs_reach (adj : Nat → List Nat) (U : Finset Nat)
    (hU : ∀ a, ∀ b ∈ adj a, b ∈ U)
    (hsym : ∀ a b, b ∈ adj a → a ∈ adj b) (s : Nat) (hs : adj s ≠ []) (fuel : Nat)
    (hfuel : 1 + 2 * (U \ ([s] : List Nat).toFinset).card ≤ fuel) :
    ∃ T, bfs adj fuel [s] [s] = some (.ok T) ∧ T.Nodup ∧
      (∀ x, x ∈ T ↔ ReachA adj s x) := by
  obtain ⟨T, h1, h2, h3, h4, h5⟩ := bfs_spec adj U hU hsym s fuel [s] [s]
    (fun x hx => hx) (List.nodup_singleton s)
    (by
      intro x hx hxq
      exact absurd hx hxq)
    (by
      intro x hx
      rw [List.mem_singleton] at hx
      subst hx
      exact Relation.ReflTransGen.refl)
    (by
      intro x hx
      rw [List.mem_singleton] at hx
      subst hx
      exact hs)
    (by simpa using hfuel)
  exact ⟨T, h1, h3,
    fun x => ⟨h4 x, fun hr => reach_mem_of_closed h5 hr (h2 s (List.mem_singleton_self s))⟩⟩

lemma removeEach_spec : ∀ (traj pool : List Nat), pool.Nodup → traj.Nodup →
    (∀ x ∈ traj, x ∈ pool) →
    ∃ pool2, removeEach pool traj = some pool2 ∧ pool2.Nodup ∧
      (∀ x, x ∈ pool2 ↔ x ∈ pool ∧ x ∉ traj) ∧
      pool2.length + traj.length = pool.length
  | [], pool, hpn, _, _ => ⟨pool, rfl, hpn, by simp, by simp⟩
  | e :: es, pool, hpn, htn, hsub => by
      have he : e ∈ pool := hsub e (List.mem_cons_self _ _)
      have hpe : (pool.erase e).Nodup := hpn.erase e
      have hes : ∀ x ∈ es, x ∈ pool.erase e := by
        intro x hx
        rw [hpn.mem_erase_iff]
        refine ⟨?_, hsub x (List.mem_cons_of_mem _ hx)⟩
        intro hxe
        subst hxe
        exact (List.nodup_cons.1 htn).1 hx
      obtain ⟨p2, h1, h2, h3, h4⟩ :=
        removeEach_spec es (pool.erase e) hpe (List.nodup_cons.1 htn).2 hes
      refine ⟨p2, ?_, h2, ?_, ?_⟩
      · rw [removeEach, if_pos he, h1]
      · intro x
        rw [h3, hpn.mem_erase_iff]
        constructor
        · rintro ⟨⟨hxe, hxp⟩, hxes⟩
          refine ⟨hxp, ?_⟩
          intro hmem
          rcases List.mem_cons.1 hmem with h | h
          · exact hxe h
          · exact hxes h
        · rintro ⟨hxp, hxout⟩
          refine ⟨⟨fun hxe => hxout (hxe ▸ List.mem_cons_self _ _), hxp⟩, ?_⟩
          exact fun hxes => hxout (List.mem_cons_of_mem _ hxes)
      · have hlen : (pool.erase e).length = pool.length - 1 :=
          List.length_erase_of_mem he
        have hpos : 0 < pool.length := List.length_pos.2 (List.ne_nil_of_mem he)
        rw [hlen] at h4
        simp only [List.length_cons]
        omega

/-- The emitted order is a concatenation of blocks, each of which is one
full reachability class (or a no-adjacency singleton). -/
inductive IsBlocks (adj : Nat → List Nat) : List Nat → Prop where
  | nil : IsBlocks adj []
  | cons (B rest : List Nat) :
      (∀ x ∈ B, ∀ y, ReachA adj x y → y ∈ B) →
      (∀ x ∈ B, ∀ y ∈ B, ReachA adj x y) →
      IsBlocks adj rest → IsBlocks adj (B ++ rest)

lemma reorderLoop_succ_singleton {adj : Nat → List Nat} {choose : List Nat → Nat}
    {bf fuel : Nat} {pool acc : List Nat}
    (hpool : ¬ pool = []) (hadj : adj (choose pool) = []) (hr : choose pool ∈ pool) :
    reorderLoop adj choose bf (fuel + 1) pool acc
      = reorderLoop adj choose bf fuel (pool.erase (choose pool))
          (acc ++ [choose pool]) := by
  rw [reorderLoop, if_neg hpool]
  simp only [hadj, if_pos, hr, if_true]

lemma reorderLoop_succ_bfs {adj : Nat → List Nat} {choose : List Nat → Nat}
    {bf fuel : Nat} {pool acc traj pool2 : List Nat}
    (hpool : ¬ pool = []) (hadj : ¬ adj (choose pool) = [])
    (hbfs : bfs adj bf [choose pool] [choose pool] = some (.ok traj))
    (hrem : removeEach pool traj = some pool2) :
    reorderLoop adj choose bf (fuel + 1) pool acc
      = reorderLoop adj choose bf fuel pool2 (acc ++ traj) := by
  rw [reorderLoop, if_neg hpool]
  simp only [if_neg hadj, hbfs, hrem]

/-- Main loop induction: on a duplicate-free pool closed under the
(symmetric) adjacency, the loop succeeds and appends to `acc` a
permutation of the pool that decomposes into reachability-class blocks. -/
lemma reorderLoop_spec (adj : Nat → List Nat) (choose : List Nat → Nat) (bf : Nat)
    (hchoose : ∀ l, l ≠ [] → choose l ∈ l)
    (U : Finset Nat) (hU : ∀ a, ∀ b ∈ adj a, b ∈ U)
    (hsym : ∀ a b, b ∈ adj a → a ∈ adj b)
    (hbf : ∀ X : Finset Nat, 1 + 2 * (U \ X).card ≤ bf) :
    ∀ (fuel : Nat) (pool acc : List Nat), pool.Nodup →
      (∀ x ∈ pool, ∀ y ∈ adj x, y ∈ pool) →
      pool.length ≤ fuel →
      ∃ tail, reorderLoop adj choose bf fuel pool acc = some (acc ++ tail) ∧
        tail.Perm pool ∧ IsBlocks adj tail := by
  intro fuel
  induction fuel with
  | zero =>
      intro pool acc hpn hpc hlen
      have hpool : pool = [] := List.length_eq_zero.1 (Nat.le_zero.1 hlen)
      subst hpool
      exact ⟨[], by simp [reorderLoop], List.Perm.refl [], IsBlocks.nil⟩
  | succ fuel ih =>
      intro pool acc hpn hpc hlen
      by_cases hpool : pool = []
      · subst hpool
        exact ⟨[], by simp [reorderLoop], List.Perm.refl [], IsBlocks.nil⟩
      · have hr : choose pool ∈ pool := hchoose pool hpool
        by_cases hadj : adj (choose pool) = []
        · -- singleton trajectory (vq_vae.py lines 1049-1051)
          have hpn2 : (pool.erase (choose pool)).Nodup := hpn.erase _
          have hpc2 : ∀ x ∈ pool.erase (choose pool), ∀ y ∈ adj x,
              y ∈ pool.erase (choose pool) := by
            intro x hx y hy
            have hxp : x ∈ pool := List.mem_of_mem_erase hx
            have hyp : y ∈ pool := hpc x hxp y hy
            rw [hpn.mem_erase_iff]
            refine ⟨?_, hyp⟩
            intro hyr
            have hxy := hsym x y hy
            rw [hyr, hadj] at hxy
            simp at hxy
          have hlen2 : (pool.erase (choose pool)).length ≤ fuel := by
            rw [List.length_erase_of_mem hr]
            have := List.length_pos.2 hpool
            omega
          obtain ⟨tail, hloop, hperm, hblocks⟩ :=
            ih (pool.erase (choose pool)) (acc ++ [choose pool]) hpn2 hpc2 hlen2
          refine ⟨choose pool :: tail, ?_, ?_, ?_⟩
          · rw [reorderLoop_succ_singleton hpool hadj hr, hloop, List.append_assoc]
            rfl
          · exact ((hperm.cons (choose pool)).trans (List.perm_cons_erase hr).symm)
          · have hclosed : ∀ x ∈ [choose pool], ∀ y,
                ReachA adj x y → y ∈ [choose pool] := by
              intro x hx y hy
              rw [List.mem_singleton] at hx
              subst hx
              rcases Relation.ReflTransGen.cases_head hy with rfl | ⟨c, hc, _⟩
              · exact List.mem_singleton_self _
              · rw [StepA, hadj] at hc
                simp at hc
            have hinter : ∀ x ∈ [choose pool], ∀ y ∈ [choose pool],
                ReachA adj x y := by
              intro x hx y hy
              rw [List.mem_singleton] at hx hy
              subst hx
              subst hy
              exact Relation.ReflTransGen.refl
            exact IsBlocks.cons [choose pool] tail hclosed hinter hblocks
        · -- BFS trajectory block (vq_vae.py lines 1052-1068)
          obtain ⟨T, hbfs, hTnd, hTmem⟩ := bfs_reach adj U hU hsym (choose pool) hadj bf
            (hbf ([choose pool] : List Nat).toFinset)
          have hrT : choose pool ∈ T := (hTmem _).2 Relation.ReflTransGen.refl
          have hTsub : ∀ x ∈ T, x ∈ pool := by
            intro x hx
            exact reach_mem_of_closed hpc ((hTmem x).1 hx) hr
          obtain ⟨pool2, hrem, hp2nd, hp2mem, hp2len⟩ :=
            removeEach_spec T pool hpn hTnd hTsub
          have hpc2 : ∀ x ∈ pool2, ∀ y ∈ adj x, y ∈ pool2 := by
            intro x hx y hy
            obtain ⟨hxp, hxT⟩ := (hp2mem x).1 hx
            have hyp : y ∈ pool := hpc x hxp y hy
            rw [hp2mem]
            refine ⟨hyp, ?_⟩
            intro hyT
            refine hxT ((hTmem x).2 ?_)
            exact Relation.ReflTransGen.tail ((hTmem y).1 hyT) (hsym x y hy)
          have hlen2 : pool2.length ≤ fuel := by
            have hTpos : 0 < T.length := List.length_pos.2 (List.ne_nil_of_mem hrT)
            omega
          obtain ⟨tail, hloop, hperm, hblocks⟩ := ih pool2 (acc ++ T) hp2nd hpc2 hlen2
          have hTdisj : List.Disjoint T pool2 := by
            intro x hxT hxp2
            exact ((hp2mem x).1 hxp2).2 hxT
          have hTPnd : (T ++ pool2).Nodup := hTnd.append hp2nd hTdisj
          have hTPperm : (T ++ pool2).Perm pool := by
            rw [List.perm_ext_iff_of_nodup hTPnd hpn]
            intro a
            constructor
            · intro ha
              rcases List.mem_append.1 ha with h | h
              · exact hTsub a h
              · exact ((hp2mem a).1 h).1
            · intro ha
              by_cases haT : a ∈ T
              · exact List.mem_append.2 (Or.inl haT)
              · exact List.mem_append.2 (Or.inr ((hp2mem a).2 ⟨ha, haT⟩))
          refine ⟨T ++ tail, ?_, ?_, ?_⟩
          · rw [reorderLoop_succ_bfs hpool hadj hbfs hrem, hloop, List.append_assoc]
          · exact (hperm.append_left T).trans hTPperm
          · have hclosed : ∀ x ∈ T, ∀ y, ReachA adj x y → y ∈ T := by
              intro x hx y hy
              exact (hTmem y).2 (((hTmem x).1 hx).trans hy)
            have hinter : ∀ x ∈ T, ∀ y ∈ T, ReachA adj x y := by
              intro x hx y hy
              exact (reach_symm hsym ((hTmem x).1 hx)).trans ((hTmem y).1 hy)
            exact IsBlocks.cons T tail hclosed hinter hblocks

/-- In a duplicate-free concatenation of reachability-class blocks, every
position lying between the positions of two connected elements holds an
element of the same class: no class is split across two non-contiguous
stretches of the list. -/
lemma blocks_contiguous {adj : Nat → List Nat}
    (hRs : ∀ x y, ReachA adj x y → ReachA adj y x) :
    ∀ (L : List Nat), IsBlocks adj L → L.Nodup →
      ∀ (a c p : Nat), ReachA adj a c → p < L.length →
        L.indexOf a ≤ p → p ≤ L.indexOf c → ReachA adj a (L.getD p 0) := by
  intro L hblocks
  induction hblocks with
  | nil =>
      intro _ a c p _ hp _ _
      simp at hp
  | cons B rest hclosed hinter _hrest ih =>
      intro hnd a c p hac hp hpa hpc
      obtain ⟨hBnd, hRnd, hdisj⟩ := List.nodup_append.1 hnd
      by_cases haB : a ∈ B
      · have hcB : c ∈ B := hclosed a haB c hac
        have hic : (B ++ rest).indexOf c = B.indexOf c := List.indexOf_append_of_mem hcB
        have hlc : B.indexOf c < B.length := List.indexOf_lt_length.2 hcB
        have hpB : p < B.length := lt_of_le_of_lt (hic ▸ hpc) hlc
        rw [List.getD_append _ _ _ _ hpB]
        exact hinter a haB _ (getD_mem 0 hpB)
      · have hcB : c ∉ B := fun hcB => haB (hclosed c hcB a (hRs a c hac))
        have hia : (B ++ rest).indexOf a = B.length + rest.indexOf a :=
          List.indexOf_append_of_not_mem haB
        have hic : (B ++ rest).indexOf c = B.length + rest.indexOf c :=
          List.indexOf_append_of_not_mem hcB
        rw [hia] at hpa
        rw [hic] at hpc
        have hpB : B.length ≤ p := by omega
        rw [List.getD_append_right _ _ _ _ hpB]
        have hlenL : (B ++ rest).length = B.length + rest.length := List.length_append B rest
        refine ih hRnd a c (p - B.length) hac ?_ ?_ ?_ <;> omega

/-- The concrete relation mapping used by the witnesses: one symmetric
ADJACENT_FRAME pair `0 ↔ 1` and one SAME_TRAJECTORY pair `(2, 3)`. -/
def wrels : Rel := [((0, 1), 2), ((1, 0), 2), ((2, 3), 1)]

lemma wrels_symm : ∀ a b, b ∈ relation_dict wrels a → a ∈ relation_dict wrels b := by
  intro a b hb
  rw [relation_dict] at hb
  obtain ⟨q, hq, rfl⟩ := List.mem_map.1 hb
  have hcond := List.of_mem_filter hq
  rw [Bool.and_eq_true, beq_iff_eq, beq_iff_eq] at hcond
  have hqmem := List.mem_of_mem_filter hq
  rw [wrels] at hqmem
  rcases List.mem_cons.1 hqmem with rfl | hqmem'
  · rw [← hcond.2]
    decide
  · rcases List.mem_cons.1 hqmem' with rfl | hqmem''
    · rw [← hcond.2]
      decide
    · rcases List.mem_cons.1 hqmem'' with rfl | hqmem'''
      · exact absurd hcond.1 (by decide)
      · simp at hqmem'''

lemma headD_mem : ∀ l : List Nat, l ≠ [] → l.headD 0 ∈ l
  | [], h => absurd rfl h
  | a :: t, _ => List.mem_cons_self a t

end Reorder

open Reorder in
/-- C1 (amended): for every dataset size `N`, every *nonempty* relation
mapping whose kinds are in `{1, 2}`, whose indices lie in `[0, N)` and
whose stored ADJACENT_FRAME pairs are symmetric, and every pool-selection
function (i.e. every random seed), `reorder_with_trajectories` succeeds
and returns an index list that is a permutation of `[0, N)`, and the
reordered relation matrix entry at the reordered positions of `(i, j)`
equals the entry at `(i, j)` of the matrix built from the original mapping
(0.1 for kind 1, 1.1 for kind 2, 0 elsewhere).  Nonemptiness is necessary:
on an empty mapping the loop completes but `np.array([])[:, 0]`
(vq_vae.py line 1081) raises `IndexError` (second counterexample
conjunct). -/
theorem c1_reorder_permutation (N : Nat) (rels : Rel) (choose : List Nat → Nat)
    (hchoose : ∀ l : List Nat, l ≠ [] → choose l ∈ l)
    (hsym : ∀ a b, b ∈ relation_dict rels a → a ∈ relation_dict rels b)
    (hne : rels ≠ [])
    (hvalid : ∀ p ∈ rels, (p.2 = 1 ∨ p.2 = 2) ∧ p.1.1 < N ∧ p.1.2 < N) :
    ∃ inds, reorder_with_trajectories N rels choose = some inds ∧
      inds.Perm (List.range N) ∧
      ∀ i j, i < N → j < N →
        reorderedMatrix rels inds (inds.indexOf i) (inds.indexOf j)
          = relationMatrix rels i j := by
  have hclosed : ∀ x ∈ List.range N, ∀ y ∈ relation_dict rels x, y ∈ List.range N := by
    intro x _ y hy
    rw [relation_dict] at hy
    obtain ⟨q, hq, rfl⟩ := List.mem_map.1 hy
    exact List.mem_range.2 (hvalid q (List.mem_of_mem_filter hq)).2.2
  obtain ⟨tail, hloop, hperm, _⟩ := reorderLoop_spec (relation_dict rels) choose
    (bfsFuel rels) hchoose (targets rels) (fun a b hb => mem_targets hb) hsym
    (fun X => bfs_fuel_ok rels X) N (List.range N) []
    (List.nodup_range N) hclosed (le_of_eq (List.length_range N))
  rw [List.nil_append] at hloop
  have hres : reorder_with_trajectories N rels choose = some tail := by
    rw [reorder_with_trajectories, hloop]
    exact if_pos ⟨hne, hvalid⟩
  refine ⟨tail, hres, hperm, ?_⟩
  intro i j hi hj
  have hiT : i ∈ tail := hperm.mem_iff.2 (List.mem_range.2 hi)
  have hjT : j ∈ tail := hperm.mem_iff.2 (List.mem_range.2 hj)
  have h1 : tail.getD (tail.indexOf i) 0 = i := by
    have h := List.indexOf_lt_length.2 hiT
    rw [List.getD_eq_getElem _ _ h]
    exact List.getElem_indexOf h
  have h2 : tail.getD (tail.indexOf j) 0 = j := by
    have h := List.indexOf_lt_length.2 hjT
    rw [List.getD_eq_getElem _ _ h]
    exact List.getElem_indexOf h
  rw [reorderedMatrix, h1, h2]

open Reorder in
/-- C1 counterexample: on the relation mapping `{(0, 1): 2}` (a legal
mapping over the indices of a dataset of size 2, stored in one direction
only) the breadth-first grouping dequeues index `1`, looks it up in
`relation_dict`, and raises `KeyError`: `reorder_with_trajectories` crashes
instead of returning a permutation.  On the empty relation mapping the
while-loop completes, but building the sparse matrix indexes
`np.array([])` with `[:, 0]` (vq_vae.py line 1081) and raises
`IndexError`, so no permutation is returned there either. -/
theorem c1_reorder_counterexample :
    reorder_with_trajectories 2 [((0, 1), 2)] (fun l => l.headD 0) = none ∧
    (¬ ∃ inds, reorder_with_trajectories 2 [((0, 1), 2)] (fun l => l.headD 0)
        = some inds ∧ inds.Perm (List.range 2)) ∧
    reorder_with_trajectories 2 [] (fun l => l.headD 0) = none := by
  refine ⟨rfl, ?_, rfl⟩
  rintro ⟨inds, h, -⟩
  rw [show reorder_with_trajectories 2 [((0, 1), 2)] (fun l => l.headD 0)
      = none from rfl] at h
  exact Option.noConfusion h

open Reorder in
/-- Witness for C1 on a concrete symmetric relation mapping. -/
theorem c1_reorder_permutation_witness :
    ∃ inds, reorder_with_trajectories 4 wrels (fun l => l.headD 0) = some inds ∧
      inds.Perm (List.range 4) ∧
      ∀ i j, i < 4 → j < 4 →
        reorderedMatrix wrels inds (inds.indexOf i) (inds.indexOf j)
          = relationMatrix wrels i j :=
  c1_reorder_permutation 4 wrels (fun l => l.headD 0) headD_mem wrels_symm
    (by decide) (by decide)

open Reorder in
/-- C2 (amended): for every relation mapping whose stored ADJACENT_FRAME
pairs are symmetric, (i) the breadth-first grouping started from any index
with an adjacency entry terminates (also on graphs with cycles) and
collects exactly the set of indices reachable from the start, without
duplicates, into one trajectory block; and (ii) in the order returned by
`reorder_with_trajectories` (kinds in `{1, 2}`, indices in `[0, N)`), a
connected adjacency component is never split across two non-contiguous
blocks: every position between the positions of two connected indices
holds an index of the same component. -/
theorem c2_bfs_collects_component :
    (∀ (rels : Rel) (s : Nat),
        (∀ a b, b ∈ relation_dict rels a → a ∈ relation_dict rels b) →
        relation_dict rels s ≠ [] →
        ∃ traj, bfs (relation_dict rels) (bfsFuel rels) [s] [s]
            = some (BfsOut.ok traj) ∧ traj.Nodup ∧
          (∀ x, x ∈ traj ↔ ReachA (relation_dict rels) s x)) ∧
    (∀ (N : Nat) (rels : Rel) (choose : List Nat → Nat),
        (∀ l : List Nat, l ≠ [] → choose l ∈ l) →
        (∀ a b, b ∈ relation_dict rels a → a ∈ relation_dict rels b) →
        (∀ p ∈ rels, (p.2 = 1 ∨ p.2 = 2) ∧ p.1.1 < N ∧ p.1.2 < N) →
        ∀ inds, reorder_with_trajectories N rels choose = some inds →
          ∀ a c, ReachA (relation_dict rels) a c →
            ∀ p, p < inds.length → inds.indexOf a ≤ p → p ≤ inds.indexOf c →
              ReachA (relation_dict rels) a (inds.getD p 0)) := by
  constructor
  · intro rels s hsym hs
    exact bfs_reach (relation_dict rels) (targets rels) (fun a b hb => mem_targets hb)
      hsym s hs (bfsFuel rels) (bfs_fuel_ok rels _)
  · intro N rels choose hchoose hsym hvalid inds hres a c hac p hp hpa hpc
    have hclosed : ∀ x ∈ List.range N, ∀ y ∈ relation_dict rels x,
        y ∈ List.range N := by
      intro x _ y hy
      rw [relation_dict] at hy
      obtain ⟨q, hq, rfl⟩ := List.mem_map.1 hy
      exact List.mem_range.2 (hvalid q (List.mem_of_mem_filter hq)).2.2
    obtain ⟨tail, hloop, hperm, hblocks⟩ := reorderLoop_spec (relation_dict rels) choose
      (bfsFuel rels) hchoose (targets rels) (fun a b hb => mem_targets hb) hsym
      (fun X => bfs_fuel_ok rels X) N (List.range N) []
      (List.nodup_range N) hclosed (le_of_eq (List.length_range N))
    rw [List.nil_append] at hloop
    have hinds : inds = tail := by
      rw [reorder_with_trajectories, hloop] at hres
      by_cases hcond : rels ≠ [] ∧ ∀ p ∈ rels, (p.2 = 1 ∨ p.2 = 2) ∧ p.1.1 < N ∧ p.1.2 < N
      · rw [show (match some tail with
            | none => none
            | some inds => if rels ≠ [] ∧ ∀ p ∈ rels,
                (p.2 = 1 ∨ p.2 = 2) ∧ p.1.1 < N ∧ p.1.2 < N
              then some inds else none) = some tail from if_pos hcond] at hres
        exact (Option.some.inj hres).symm
      · rw [show (match some tail with
            | none => none
            | some inds => if rels ≠ [] ∧ ∀ p ∈ rels,
                (p.2 = 1 ∨ p.2 = 2) ∧ p.1.1 < N ∧ p.1.2 < N
              then some inds else none) = none from if_neg hcond] at hres
        exact Option.noConfusion hres
    subst hinds
    have hnd : inds.Nodup := hperm.nodup_iff.2 (List.nodup_range N)
    exact blocks_contiguous (fun x y h => reach_symm hsym h) inds hblocks hnd
      a c p hac hp hpa hpc

open Reorder in
/-- C2 counterexample: on the one-directional mapping `{(0, 1): 2}` the
index `1` is reachable from the chosen start `0`, yet the breadth-first
grouping raises `KeyError` (`relation_dict[1]`) instead of collecting the
reachable set into a trajectory block. -/
theorem c2_bfs_counterexample :
    ReachA (relation_dict [((0, 1), 2)]) 0 1 ∧
    bfs (relation_dict [((0, 1), 2)]) (bfsFuel [((0, 1), 2)]) [0] [0]
        = some BfsOut.err ∧
    ¬ ∃ traj, bfs (relation_dict [((0, 1), 2)]) (bfsFuel [((0, 1), 2)]) [0] [0]
        = some (BfsOut.ok traj) := by
  refine ⟨Relation.ReflTransGen.single (show (1 : Nat) ∈ relation_dict [((0, 1), 2)] 0
    by decide), rfl, ?_⟩
  rintro ⟨traj, h⟩
  rw [show bfs (relation_dict [((0, 1), 2)]) (bfsFuel [((0, 1), 2)]) [0] [0]
      = some BfsOut.err from rfl] at h
  exact BfsOut.noConfusion (Option.some.inj h)

open Reorder in
/-- Witness for C2: the BFS part at the symmetric mapping `wrels` from
start `0`, and the contiguity part on the run of
`reorder_with_trajectories` over the same mapping. -/
theorem c2_bfs_collects_component_witness :
    (∃ traj, bfs (relation_dict wrels) (bfsFuel wrels) [0] [0]
        = some (BfsOut.ok traj) ∧ traj.Nodup ∧
        (∀ x, x ∈ traj ↔ ReachA (relation_dict wrels) 0 x)) ∧
    ReachA (relation_dict wrels) 0
      (([0, 1, 2, 3] : List Nat).getD 1 0) := by
  constructor
  · exact c2_bfs_collects_component.1 wrels 0 wrels_symm (by decide)
  · refine c2_bfs_collects_component.2 4 wrels (fun l => l.headD 0) headD_mem
      wrels_symm (by decide) [0, 1, 2, 3] rfl 0 1
      (Relation.ReflTransGen.single (show (1 : Nat) ∈ relation_dict wrels 0
        by decide)) 1 (by decide) ?_ ?_
    · show ([0, 1, 2, 3] : List Nat).indexOf 0 ≤ 1
      decide
    · show 1 ≤ ([0, 1, 2, 3] : List Nat).indexOf 1
      decide

end DynaMorph
